import Mathlib

/-!
Verification of the ipbin IP prefix-set engine.

The codec definitions below are shallow embeddings of `EncodePrefix` and
`ReadPrefixFromBytes` from `src/ipbin/ipbin.go`.  The range decomposer and
the set builder live in the external dependency `go4.org/netipx` (only
their call sites `MergePrefixes` and `ParseIPSubnets` in
`src/ipbin/parser.go` are part of the repository); those two components
are modelled from the specification, sections 4.2 and 4.3, as noted on
each definition.

Machine integers are modelled as `Nat` with explicit bounds; a Go byte
slice is a `List Nat` whose entries are below 256.
-/

/-- Address family: the 4-variant or the 6-variant of IP. -/
inductive Fam : Type
  | v4
  | v6
deriving DecidableEq, Repr

/-- Bit width of an address of the given family (32 or 128). -/
def Fam.width : Fam → Nat
  | .v4 => 32
  | .v6 => 128

/-- Byte width of an address of the given family (4 or 16), the sizes of
the Go arrays returned by `Addr.As4` and `Addr.As16`. -/
def Fam.nbytes : Fam → Nat
  | .v4 => 4
  | .v6 => 16

/-- An IP address: a family tag plus the address value as an unsigned
integer (`netip.Addr`). -/
structure Addr : Type where
  fam : Fam
  val : Nat
deriving DecidableEq, Repr

/-- The address value fits in the family's bit width; true of every
`netip.Addr` by construction. -/
def Addr.Valid (a : Addr) : Prop := a.val < 2 ^ a.fam.width

instance (a : Addr) : Decidable a.Valid := by
  unfold Addr.Valid; exact inferInstance

/-- A prefix: an address plus a prefix length in bits (`netip.Prefix`). -/
structure Pfx : Type where
  addr : Addr
  bits : Nat
deriving DecidableEq, Repr

/-- Mirror of `netip.Prefix.IsValid`: the length is within the family's
bit width and the address is a real address. -/
def Pfx.IsValid (p : Pfx) : Prop := p.bits ≤ p.addr.fam.width ∧ p.addr.Valid

instance (p : Pfx) : Decidable p.IsValid := by
  unfold Pfx.IsValid; exact inferInstance

/-- Big-endian byte decomposition of a value into `w` bytes; mirrors the
byte arrays produced by Go's `Addr.As4` / `Addr.As16`. -/
def toBytesBE : Nat → Nat → List Nat
  | 0, _ => []
  | w + 1, v => toBytesBE w (v / 256) ++ [v % 256]

/-- Value of a big-endian byte list. -/
def fromBytesBE (l : List Nat) : Nat := l.foldl (fun acc b => acc * 256 + b) 0

/-- Embedding of `EncodePrefix` (src/ipbin/ipbin.go lines 26-45).  The Go
function returns a fixed 17-byte array `b`, a count `n` and an error; the
model returns the emitted slice `b[:n]` (so the byte count is the list
length) and `none` exactly when the Go function reports an invalid
prefix.  The header byte is the prefix length for the 4-variant and
length + 33 for the 6-variant; the payload is the first
`(bits + 7) / 8` address bytes. -/
def EncodePrefix (p : Pfx) : Option (List Nat) :=
  if p.IsValid then
    some ((if p.addr.fam = .v4 then p.bits else p.bits + 33) ::
      (toBytesBE p.addr.fam.nbytes p.addr.val).take ((p.bits + 7) / 8))
  else none

/-- The three error outcomes of `ReadPrefixFromBytes`: `io.EOF`,
`io.ErrUnexpectedEOF`, and the invalid-header error. -/
inductive ReadErr : Type
  | eof
  | unexpectedEof
  | invalidHeader (hdr : Nat)
deriving DecidableEq, Repr

/-- Result of `ReadPrefixFromBytes`: the Go function returns a triple
`(netip.Prefix, int, error)`; `ok` carries the decoded prefix and the
bytes consumed, `err` carries the returned count (always 0 in the code)
and the error. -/
inductive ReadRes : Type
  | ok (p : Pfx) (n : Nat)
  | err (n : Nat) (e : ReadErr)
deriving DecidableEq, Repr

/-- Embedding of `ReadPrefixFromBytes` (src/ipbin/ipbin.go lines 89-121).
An empty buffer yields `eof`; header ≤ 32 is a 4-variant prefix, header
≤ 161 a 6-variant one of length header − 33, larger headers are invalid.
Missing payload bytes yield `unexpectedEof`; the address is the payload
zero-padded on the right to the family's byte width, exactly as the Go
`copy` into a zeroed 4- or 16-byte array. -/
def ReadPrefixFromBytes (buf : List Nat) : ReadRes :=
  match buf with
  | [] => .err 0 .eof
  | hdr :: rest =>
    if hdr ≤ 32 then
      let numBytes := 1 + (hdr + 7) / 8
      if buf.length < numBytes then .err 0 .unexpectedEof
      else .ok ⟨⟨.v4, fromBytesBE (rest.take (numBytes - 1) ++
        List.replicate (4 - (numBytes - 1)) 0)⟩, hdr⟩ numBytes
    else if hdr ≤ 161 then
      let pl := hdr - 33
      let numBytes := 1 + (pl + 7) / 8
      if buf.length < numBytes then .err 0 .unexpectedEof
      else .ok ⟨⟨.v6, fromBytesBE (rest.take (numBytes - 1) ++
        List.replicate (16 - (numBytes - 1)) 0)⟩, pl⟩ numBytes
    else .err 0 (.invalidHeader hdr)

/-- Declared prefix length of a header byte (the length the decoder will
read for that header). -/
def declaredLen (hdr : Nat) : Nat := if hdr ≤ 32 then hdr else hdr - 33

/-- Number of trailing zero bits of a value (arbitrary at 0, where the
caller substitutes the full address width). -/
def ntz (n : Nat) : Nat :=
  if h : n = 0 then 0
  else if n % 2 = 1 then 0 else ntz (n / 2) + 1
termination_by n
decreasing_by exact Nat.div_lt_self (Nat.pos_of_ne_zero h) one_lt_two

/-- Alignment exponent of a cursor: how large an aligned block can start
here, as a bit count, per spec section 4.2 step 1 — the trailing zero
count, or the full width `W` at cursor 0. -/
def aexp (W c : Nat) : Nat := if c = 0 then W else ntz c

/-- Modelled from the spec: the range decomposer (spec section 4.2),
realized in the program by `go4.org/netipx` (`IPRange.AppendPrefixes`),
an external dependency not under src/.  Cursor loop from `c`: while
`c ≤ to`, emit the block whose size exponent is the minimum of the
alignment exponent of `c` and `floor(log2(to - c + 1))`, then advance
the cursor past the block. -/
def decompose (f : Fam) (c toN : Nat) : List Pfx :=
  if h : c ≤ toN then
    ⟨⟨f, c⟩, f.width - min (aexp f.width c) (Nat.log 2 (toN - c + 1))⟩ ::
      decompose f (c + 2 ^ min (aexp f.width c) (Nat.log 2 (toN - c + 1))) toN
  else []
termination_by toN + 1 - c
decreasing_by
  have h1 : 1 ≤ 2 ^ min (aexp f.width c) (Nat.log 2 (toN - c + 1)) :=
    Nat.one_le_two_pow
  omega

/-- Offset of a family's band on the single merge axis.  The 4-variant
sorts entirely before the 6-variant (spec section 3: family is never
mixed in a comparison), and the deliberate one-point gap between the
bands means ranges of different families are never numerically adjacent,
so the merge can never coalesce across families. -/
def famOff : Fam → Nat
  | .v4 => 0
  | .v6 => 2 ^ 32 + 1

/-- Position of an address on the merge axis. -/
def Addr.idx (a : Addr) : Nat := famOff a.fam + a.val

/-- Address at a position of the merge axis (left inverse of `Addr.idx`
on the two family bands). -/
def unidx (n : Nat) : Addr :=
  if n < 2 ^ 32 then ⟨.v4, n⟩ else ⟨.v6, n - (2 ^ 32 + 1)⟩

/-- A closed interval on the merge axis; the Set Builder's internal
representation of one Range of the Canonical Set. -/
structure NRange : Type where
  lo : Nat
  hi : Nat
deriving DecidableEq, Repr

/-- Block size of a prefix in addresses. -/
def Pfx.size (p : Pfx) : Nat := 2 ^ (p.addr.fam.width - p.bits)

/-- Base address of a prefix with host bits cleared, as
`netipx.RangeOfPrefix` masks a prefix before taking its range. -/
def Pfx.base (p : Pfx) : Nat := p.addr.val - p.addr.val % p.size

/-- The closed range denoted by a prefix (spec section 3:
`[Address, Address + 2^(W-length) - 1]` after clearing host bits),
placed on the merge axis. -/
def Pfx.nrange (p : Pfx) : NRange :=
  ⟨famOff p.addr.fam + p.base, famOff p.addr.fam + p.base + p.size - 1⟩

/-- A point of the merge axis lies in an interval. -/
def memN (n : Nat) (r : NRange) : Prop := r.lo ≤ n ∧ n ≤ r.hi

/-- A point of the merge axis is covered by some interval of the list. -/
def covered (n : Nat) (l : List NRange) : Prop := ∃ r ∈ l, memN n r

/-- Modelled from the spec: one insertion into the Set Builder's sorted
disjoint range list (spec section 4.3), realized in the program by
`go4.org/netipx` (`IPSetBuilder`), an external dependency not under
src/.  Intervals strictly before the new range (with a gap) are kept;
if the new range falls strictly before the current head (with a gap) it
is placed there; otherwise the head overlaps or touches the new range
and the two are merged into their union and insertion continues. -/
def insertRange (r : NRange) : List NRange → List NRange
  | [] => [r]
  | x :: xs =>
    if x.hi + 1 < r.lo then x :: insertRange r xs
    else if r.hi + 1 < x.lo then r :: x :: xs
    else insertRange ⟨min r.lo x.lo, max r.hi x.hi⟩ xs

/-- Canonical Set invariant (spec section 3): every range is nonempty
and consecutive ranges are separated by a strict gap (which also makes
the list sorted ascending). -/
def Canon (l : List NRange) : Prop :=
  (∀ r ∈ l, r.lo ≤ r.hi) ∧ l.Pairwise (fun x y => x.hi + 1 < y.lo)

/-- Embedding of `MergePrefixes` (src/ipbin/parser.go lines 64-70): fold
every prefix's range into the Set Builder, whose merge step is the
spec-modelled `insertRange`; the result is the finalized Canonical Set. -/
def MergePrefixes (ps : List Pfx) : List NRange :=
  ps.foldl (fun s p => insertRange p.nrange s) []

/-- Range view of a finalized Canonical Set: each interval rendered as a
pair of addresses (spec section 4.3, `ranges()`). -/
def rangeView (l : List NRange) : List (Addr × Addr) :=
  l.map fun r => (unidx r.lo, unidx r.hi)

/-- Prefix view of a finalized Canonical Set: each range independently
decomposed into its minimal CIDR prefixes, concatenated in range order
(spec section 4.3, `prefixes()`). -/
def prefixView (l : List NRange) : List Pfx :=
  (l.map fun r => decompose (unidx r.lo).fam (unidx r.lo).val (unidx r.hi).val).flatten

/-- End address (inclusive) of a prefix's block, within its family. -/
def blockEnd (p : Pfx) : Nat := p.addr.val + 2 ^ (p.addr.fam.width - p.bits) - 1

/-- Ascending order on addresses: the 4-variant first, then by value;
this is the order of the merge axis. -/
def addrLt (a b : Addr) : Prop :=
  (a.fam = .v4 ∧ b.fam = .v6) ∨ (a.fam = b.fam ∧ a.val < b.val)

/-- An interval of the merge axis is nonempty and lies entirely inside
one family's band (every range produced by the merge is of one family;
the one-point gap between bands separates the two cases). -/
def BandPure (r : NRange) : Prop :=
  r.lo ≤ r.hi ∧ (r.hi < 2 ^ 32 ∨ 2 ^ 32 < r.lo)

/-- No single CIDR-aligned prefix (address `A`, length `L`) that lies
inside `[fr, to]` covers both `p`'s and `q`'s blocks: the two cannot be
losslessly combined into one larger prefix still contained in the
range. -/
def noncomb (W fr toN : Nat) (p q : Pfx) : Prop :=
  ∀ A L, L ≤ W → 2 ^ (W - L) ∣ A →
    A ≤ p.addr.val → blockEnd p ≤ A + 2 ^ (W - L) - 1 →
    A ≤ q.addr.val → blockEnd q ≤ A + 2 ^ (W - L) - 1 →
    fr ≤ A → A + 2 ^ (W - L) - 1 ≤ toN → False

/-- One already-lexed input line of `ParseIPSubnets`
(src/ipbin/parser.go lines 11-53): a single address, an `a-b` range, a
CIDR line, or a line whose address text fails `netip.ParseAddr` /
`netip.ParsePrefix`. -/
inductive LineItem : Type
  | single (a : Addr)
  | rng (a b : Addr)
  | cidr (p : Pfx)
  | bad
deriving DecidableEq, Repr

/-- The only error `ParseIPSubnets` can return besides scanner failures:
an address or prefix that does not parse. -/
inductive ParseErr : Type
  | addrParse
deriving DecidableEq, Repr

/-- Modelled from the spec: `netipx.IPRange.AppendPrefixes` at the call
site in `ParseIPSubnets` (external dependency, not under src/).  Spec
section 4.2 defines decomposition only for a valid Range (same family,
`from ≤ to`), the call site in src/ipbin/parser.go has no error path,
and spec section 9 records that an invalid range is not rejected; per
netipx semantics an invalid `IPRange` appends nothing to `dst`. -/
def appendRangeOf (a b : Addr) (dst : List Pfx) : List Pfx :=
  if a.fam = b.fam ∧ a.val ≤ b.val then dst ++ decompose a.fam a.val b.val
  else dst

/-- One line of the `ParseIPSubnets` loop body: how the accumulated
prefix list and the error state evolve (src/ipbin/parser.go lines
19-47). -/
def parseStep (nets : List Pfx) : LineItem → Except ParseErr (List Pfx)
  | .single a => .ok (nets ++ [⟨a, a.fam.width⟩])
  | .rng a b => .ok (appendRangeOf a b nets)
  | .cidr p => .ok (nets ++ [p])
  | .bad => .error .addrParse

/-- The `ParseIPSubnets` scan loop: each line updates the accumulator,
any line error aborts the whole call (src/ipbin/parser.go returns
`nil, err` immediately). -/
def parseItemsAux (nets : List Pfx) : List LineItem → Except ParseErr (List Pfx)
  | [] => .ok nets
  | it :: its =>
    match parseStep nets it with
    | .ok nets1 => parseItemsAux nets1 its
    | .error e => .error e

/-- Embedding of `ParseIPSubnets` (src/ipbin/parser.go lines 11-53) over
already-lexed lines. -/
def ParseIPSubnets (items : List LineItem) : Except ParseErr (List Pfx) :=
  parseItemsAux [] items

theorem toBytesBE_length (w v : Nat) : (toBytesBE w v).length = w := by
  induction w generalizing v with
  | zero => rfl
  | succ w ih => simp [toBytesBE, ih]

theorem fromBytesBE_append_one (l : List Nat) (b : Nat) :
    fromBytesBE (l ++ [b]) = fromBytesBE l * 256 + b := by
  unfold fromBytesBE
  rw [List.foldl_append]
  rfl

theorem fromBytesBE_toBytesBE (w v : Nat) (h : v < 256 ^ w) :
    fromBytesBE (toBytesBE w v) = v := by
  induction w generalizing v with
  | zero =>
    have : v = 0 := by simpa using h
    simp [this, toBytesBE, fromBytesBE]
  | succ w ih =>
    have hdiv : v / 256 < 256 ^ w := by
      rw [Nat.div_lt_iff_lt_mul (by norm_num : 0 < 256)]
      calc v < 256 ^ (w + 1) := h
        _ = 256 ^ w * 256 := by ring
    rw [toBytesBE, fromBytesBE_append_one, ih _ hdiv]
    omega

theorem toBytesBE_mul_pow (k : Nat) : ∀ w u, k ≤ w →
    toBytesBE w (u * 256 ^ k) = toBytesBE (w - k) u ++ List.replicate k 0 := by
  induction k with
  | zero => intro w u _; simp
  | succ k ih =>
    intro w u hkw
    obtain ⟨w', rfl⟩ : ∃ w', w = w' + 1 := ⟨w - 1, by omega⟩
    have hdiv : u * 256 ^ (k + 1) / 256 = u * 256 ^ k := by
      rw [pow_succ, ← mul_assoc, Nat.mul_div_cancel _ (by norm_num : 0 < 256)]
    have hmod : u * 256 ^ (k + 1) % 256 = 0 := by
      rw [pow_succ, ← mul_assoc, Nat.mul_mod_left]
    have hw : w' + 1 - (k + 1) = w' - k := by omega
    simp only [toBytesBE]
    rw [hdiv, hmod, ih w' u (by omega), hw]
    simp [List.replicate_succ', List.append_assoc]

theorem payload_exact (w val bits : Nat) (hb : bits ≤ 8 * w) (hc : 2 ^ (8 * w - bits) ∣ val) :
    (toBytesBE w val).take ((bits + 7) / 8) ++
      List.replicate (w - (bits + 7) / 8) 0 = toBytesBE w val ∧
    ((toBytesBE w val).take ((bits + 7) / 8)).length = (bits + 7) / 8 := by
  set pl := (bits + 7) / 8 with hpl
  have hplw : pl ≤ w := by omega
  have hdvd : (256 : Nat) ^ (w - pl) ∣ val := by
    have h1 : 8 * (w - pl) ≤ 8 * w - bits := by omega
    have h2 : (256 : Nat) ^ (w - pl) = 2 ^ (8 * (w - pl)) := by
      rw [pow_mul]; norm_num
    rw [h2]
    exact dvd_trans (pow_dvd_pow 2 h1) hc
  have hval1 : val = val / 256 ^ (w - pl) * 256 ^ (w - pl) :=
    (Nat.div_mul_cancel hdvd).symm
  have htb : toBytesBE w val =
      toBytesBE pl (val / 256 ^ (w - pl)) ++ List.replicate (w - pl) 0 := by
    conv_lhs => rw [hval1]
    rw [toBytesBE_mul_pow (w - pl) w _ (by omega)]
    have hww : w - (w - pl) = pl := by omega
    rw [hww]
  have htake : (toBytesBE w val).take pl = toBytesBE pl (val / 256 ^ (w - pl)) := by
    rw [htb]
    exact List.take_left' (toBytesBE_length pl _)
  refine ⟨?_, ?_⟩
  · rw [htake, ← htb]
  · rw [htake, toBytesBE_length]

theorem roundtrip_v4 (val bits : Nat) (hb : bits ≤ 32) (hval : val < 2 ^ 32)
    (hc : 2 ^ (32 - bits) ∣ val) :
    ∃ bs, EncodePrefix ⟨⟨.v4, val⟩, bits⟩ = some bs ∧
      bs.length = 1 + (bits + 7) / 8 ∧
      ReadPrefixFromBytes bs = .ok ⟨⟨.v4, val⟩, bits⟩ (1 + (bits + 7) / 8) := by
  obtain ⟨hfull, hlen⟩ := payload_exact 4 val bits (by omega) (by
    have h32 : 8 * 4 - bits = 32 - bits := by omega
    rw [h32]; exact hc)
  set pl := (bits + 7) / 8 with hpl
  set payload := (toBytesBE 4 val).take pl with hpay
  have hvalid : Pfx.IsValid ⟨⟨.v4, val⟩, bits⟩ := by
    constructor
    · simpa [Fam.width] using hb
    · simpa [Addr.Valid, Fam.width] using hval
  have henc : EncodePrefix ⟨⟨.v4, val⟩, bits⟩ = some (bits :: payload) := by
    unfold EncodePrefix
    rw [if_pos hvalid]
    simp [Fam.nbytes]
  refine ⟨bits :: payload, henc, by simp [hlen]; omega, ?_⟩
  have hdec256 : fromBytesBE (payload ++ List.replicate (4 - pl) 0) = val := by
    rw [hfull]
    exact fromBytesBE_toBytesBE 4 val (by
      have : (256 : Nat) ^ 4 = 2 ^ 32 := by norm_num
      omega)
  have htk : payload.take pl = payload :=
    List.take_of_length_le (by omega)
  unfold ReadPrefixFromBytes
  simp only [List.length_cons, hlen]
  rw [if_pos hb, if_neg (by omega)]
  simp only [← hpl, Nat.add_sub_cancel_left]
  rw [htk, hdec256]

theorem roundtrip_v6 (val bits : Nat) (hb : bits ≤ 128) (hval : val < 2 ^ 128)
    (hc : 2 ^ (128 - bits) ∣ val) :
    ∃ bs, EncodePrefix ⟨⟨.v6, val⟩, bits⟩ = some bs ∧
      bs.length = 1 + (bits + 7) / 8 ∧
      ReadPrefixFromBytes bs = .ok ⟨⟨.v6, val⟩, bits⟩ (1 + (bits + 7) / 8) := by
  obtain ⟨hfull, hlen⟩ := payload_exact 16 val bits (by omega) (by
    have h128 : 8 * 16 - bits = 128 - bits := by omega
    rw [h128]; exact hc)
  set pl := (bits + 7) / 8 with hpl
  set payload := (toBytesBE 16 val).take pl with hpay
  have hvalid : Pfx.IsValid ⟨⟨.v6, val⟩, bits⟩ := by
    constructor
    · simpa [Fam.width] using hb
    · simpa [Addr.Valid, Fam.width] using hval
  have henc : EncodePrefix ⟨⟨.v6, val⟩, bits⟩ = some ((bits + 33) :: payload) := by
    unfold EncodePrefix
    rw [if_pos hvalid]
    simp [Fam.nbytes]
  refine ⟨(bits + 33) :: payload, henc, by simp [hlen]; omega, ?_⟩
  have hdec256 : fromBytesBE (payload ++ List.replicate (16 - pl) 0) = val := by
    rw [hfull]
    exact fromBytesBE_toBytesBE 16 val (by
      have : (256 : Nat) ^ 16 = 2 ^ 128 := by norm_num
      omega)
  have htk : payload.take pl = payload :=
    List.take_of_length_le (by omega)
  have hsub : bits + 33 - 33 = bits := by omega
  unfold ReadPrefixFromBytes
  simp only [List.length_cons, hlen, hsub]
  rw [if_neg (by omega : ¬(bits + 33 ≤ 32)), if_pos (by omega : bits + 33 ≤ 161)]
  rw [if_neg (by omega)]
  simp only [← hpl, Nat.add_sub_cancel_left]
  rw [htk, hdec256]

/-- C1: for every valid prefix with host bits cleared, decoding the
encoding returns the same prefix, and the encoded byte count equals the
consumed byte count equals `1 + ceil(length/8)`. -/
theorem codec_roundtrip (p : Pfx) (hv : p.IsValid)
    (hc : 2 ^ (p.addr.fam.width - p.bits) ∣ p.addr.val) :
    ∃ bs, EncodePrefix p = some bs ∧ bs.length = 1 + (p.bits + 7) / 8 ∧
      ReadPrefixFromBytes bs = .ok p (1 + (p.bits + 7) / 8) := by
  obtain ⟨⟨fam, val⟩, bits⟩ := p
  obtain ⟨hb, hval⟩ := hv
  cases fam with
  | v4 =>
    exact roundtrip_v4 val bits (by simpa [Fam.width] using hb)
      (by simpa [Addr.Valid, Fam.width] using hval)
      (by simpa [Fam.width] using hc)
  | v6 =>
    exact roundtrip_v6 val bits (by simpa [Fam.width] using hb)
      (by simpa [Addr.Valid, Fam.width] using hval)
      (by simpa [Fam.width] using hc)

/-- Witness for C1 at the concrete prefix 1.2.3.0/31. -/
theorem codec_roundtrip_witness :
    Pfx.IsValid ⟨⟨.v4, 0x01020300⟩, 31⟩ ∧
    2 ^ ((⟨⟨.v4, 0x01020300⟩, 31⟩ : Pfx).addr.fam.width -
        (⟨⟨.v4, 0x01020300⟩, 31⟩ : Pfx).bits) ∣
      (⟨⟨.v4, 0x01020300⟩, 31⟩ : Pfx).addr.val ∧
    (∃ bs, EncodePrefix ⟨⟨.v4, 0x01020300⟩, 31⟩ = some bs ∧
      bs.length = 1 + (31 + 7) / 8 ∧
      ReadPrefixFromBytes bs = .ok ⟨⟨.v4, 0x01020300⟩, 31⟩ (1 + (31 + 7) / 8)) :=
  ⟨by decide, by decide, codec_roundtrip ⟨⟨.v4, 0x01020300⟩, 31⟩ (by decide) (by decide)⟩

/-- C6: `ReadPrefixFromBytes` fails exactly on an empty buffer (end of
input), a header above 161 (invalid header), or a buffer shorter than
`1 + ceil(declaredLen/8)` (truncated input, with consumed count 0); on
every other input it succeeds consuming exactly that many bytes. -/
theorem read_errors_exact :
    ReadPrefixFromBytes [] = .err 0 .eof ∧
    (∀ h t, 161 < h → ReadPrefixFromBytes (h :: t) = .err 0 (.invalidHeader h)) ∧
    (∀ h t, h ≤ 161 → (h :: t).length < 1 + (declaredLen h + 7) / 8 →
      ReadPrefixFromBytes (h :: t) = .err 0 .unexpectedEof) ∧
    (∀ h t, h ≤ 161 → 1 + (declaredLen h + 7) / 8 ≤ (h :: t).length →
      ∃ p, ReadPrefixFromBytes (h :: t) = .ok p (1 + (declaredLen h + 7) / 8)) := by
  refine ⟨rfl, ?_, ?_, ?_⟩
  · intro h t hh
    simp only [ReadPrefixFromBytes]
    rw [if_neg (by omega : ¬h ≤ 32), if_neg (by omega : ¬h ≤ 161)]
  · intro h t hh hlen
    simp only [ReadPrefixFromBytes]
    by_cases h32 : h ≤ 32
    · simp only [declaredLen, if_pos h32] at hlen
      rw [if_pos h32, if_pos hlen]
    · simp only [declaredLen, if_neg h32] at hlen
      rw [if_neg h32, if_pos hh, if_pos hlen]
  · intro h t hh hlen
    simp only [ReadPrefixFromBytes, declaredLen] at hlen ⊢
    by_cases h32 : h ≤ 32
    · simp only [if_pos h32] at hlen ⊢
      rw [if_neg (by omega)]
      exact ⟨_, rfl⟩
    · simp only [if_neg h32] at hlen ⊢
      rw [if_pos hh, if_neg (by omega)]
      exact ⟨_, rfl⟩

/-- Witness for C6 at spec scenario 5: header 24 declares 3 payload
bytes but only 1 remains; the call fails with the truncation error and
consumed count 0. -/
theorem read_errors_exact_witness :
    (24 : Nat) ≤ 161 ∧ ([24, 1] : List Nat).length < 1 + (declaredLen 24 + 7) / 8 ∧
    ReadPrefixFromBytes [24, 1] = .err 0 .unexpectedEof :=
  ⟨by decide, by decide, read_errors_exact.2.2.1 24 [1] (by decide) (by decide)⟩

/-- C7: concrete scenarios 1 and 2 — 1.2.3.0/31 encodes to
`[31, 1, 2, 3, 0]` and decodes back consuming 5 bytes, and
2001:db8:abcd:1234::/64 encodes to the 9 bytes
`[97, 0x20, 0x01, 0x0d, 0xb8, 0xab, 0xcd, 0x12, 0x34]`. -/
theorem codec_concrete_scenarios :
    EncodePrefix ⟨⟨.v4, 0x01020300⟩, 31⟩ = some [31, 1, 2, 3, 0] ∧
    ReadPrefixFromBytes [31, 1, 2, 3, 0] = .ok ⟨⟨.v4, 0x01020300⟩, 31⟩ 5 ∧
    EncodePrefix ⟨⟨.v6, 0x20010db8abcd1234 * 2 ^ 64⟩, 64⟩ =
      some [97, 0x20, 0x01, 0x0d, 0xb8, 0xab, 0xcd, 0x12, 0x34] ∧
    ([97, 0x20, 0x01, 0x0d, 0xb8, 0xab, 0xcd, 0x12, 0x34] : List Nat).length = 9 :=
  ⟨by decide, by decide, by decide, by decide⟩

/-- C10: the codec does not enforce or restore canonical form — the
non-canonical 1.2.3.4/25 (host bits inside the last payload byte are
nonzero) encodes with those host bits emitted as-is and decodes back to
the same non-canonical prefix. -/
theorem codec_noncanonical_passthrough :
    EncodePrefix ⟨⟨.v4, 0x01020304⟩, 25⟩ = some [25, 1, 2, 3, 4] ∧
    ReadPrefixFromBytes [25, 1, 2, 3, 4] = .ok ⟨⟨.v4, 0x01020304⟩, 25⟩ 5 ∧
    (⟨⟨.v4, 0x01020304⟩, 25⟩ : Pfx).addr.val % 2 ^ (32 - 25) ≠ 0 :=
  ⟨by decide, by decide, by decide⟩

theorem covered_cons (n : Nat) (x : NRange) (l : List NRange) :
    covered n (x :: l) ↔ memN n x ∨ covered n l := by
  unfold covered
  constructor
  · rintro ⟨r, hr, hm⟩
    rcases List.mem_cons.mp hr with rfl | hr
    · exact Or.inl hm
    · exact Or.inr ⟨r, hr, hm⟩
  · rintro (hm | ⟨r, hr, hm⟩)
    · exact ⟨x, by simp, hm⟩
    · exact ⟨r, by simp [hr], hm⟩

theorem covered_nil (n : Nat) : ¬ covered n [] := by
  rintro ⟨r, hr, _⟩
  simp at hr

theorem insertRange_lo_bound (c : Nat) :
    ∀ (l : List NRange) (r : NRange), c < r.lo → (∀ y ∈ l, c < y.lo) →
      ∀ s ∈ insertRange r l, c < s.lo := by
  intro l
  induction l with
  | nil =>
    intro r hr _ s hs
    simp only [insertRange, List.mem_singleton] at hs
    exact hs ▸ hr
  | cons x xs ih =>
    intro r hr hl s hs
    simp only [insertRange] at hs
    by_cases h1 : x.hi + 1 < r.lo
    · rw [if_pos h1] at hs
      rcases List.mem_cons.mp hs with rfl | hs
      · exact hl s (by simp)
      · exact ih r hr (fun y hy => hl y (by simp [hy])) s hs
    · rw [if_neg h1] at hs
      by_cases h2 : r.hi + 1 < x.lo
      · rw [if_pos h2] at hs
        rcases List.mem_cons.mp hs with rfl | hs
        · exact hr
        · exact hl s hs
      · rw [if_neg h2] at hs
        refine ih _ ?_ (fun y hy => hl y (by simp [hy])) s hs
        have hx : c < x.lo := hl x (by simp)
        show c < min r.lo x.lo
        omega

theorem insertRange_canon :
    ∀ (l : List NRange) (r : NRange), r.lo ≤ r.hi → Canon l →
      Canon (insertRange r l) := by
  intro l
  induction l with
  | nil =>
    intro r hr _
    constructor
    · intro s hs
      simp only [insertRange, List.mem_singleton] at hs
      exact hs ▸ hr
    · simp [insertRange]
  | cons x xs ih =>
    intro r hr hc
    obtain ⟨hval, hpw⟩ := hc
    have hvx : x.lo ≤ x.hi := hval x (by simp)
    have hvxs : ∀ y ∈ xs, y.lo ≤ y.hi := fun y hy => hval y (by simp [hy])
    have hgap : ∀ y ∈ xs, x.hi + 1 < y.lo := (List.pairwise_cons.mp hpw).1
    have hpw2 : xs.Pairwise (fun a b => a.hi + 1 < b.lo) := (List.pairwise_cons.mp hpw).2
    simp only [insertRange]
    by_cases h1 : x.hi + 1 < r.lo
    · rw [if_pos h1]
      have hc2 : Canon (insertRange r xs) := ih r hr ⟨hvxs, hpw2⟩
      refine ⟨?_, ?_⟩
      · intro s hs
        rcases List.mem_cons.mp hs with rfl | hs
        · exact hvx
        · exact hc2.1 s hs
      · rw [List.pairwise_cons]
        exact ⟨insertRange_lo_bound (x.hi + 1) xs r h1 hgap, hc2.2⟩
    · rw [if_neg h1]
      by_cases h2 : r.hi + 1 < x.lo
      · rw [if_pos h2]
        refine ⟨?_, ?_⟩
        · intro s hs
          rcases List.mem_cons.mp hs with rfl | hs
          · exact hr
          · exact hval s hs
        · rw [List.pairwise_cons]
          refine ⟨?_, hpw⟩
          intro s hs
          rcases List.mem_cons.mp hs with rfl | hs
          · exact h2
          · have := hgap s hs
            omega
      · rw [if_neg h2]
        refine ih _ ?_ ⟨hvxs, hpw2⟩
        show min r.lo x.lo ≤ max r.hi x.hi
        omega

theorem covered_insertRange :
    ∀ (l : List NRange) (r : NRange), r.lo ≤ r.hi → (∀ y ∈ l, y.lo ≤ y.hi) →
      ∀ n, covered n (insertRange r l) ↔ covered n l ∨ memN n r := by
  intro l
  induction l with
  | nil =>
    intro r hr _ n
    simp only [insertRange]
    rw [covered_cons]
    constructor
    · rintro (h | h)
      · exact Or.inr h
      · exact absurd h (covered_nil n)
    · rintro (h | h)
      · exact absurd h (covered_nil n)
      · exact Or.inl h
  | cons x xs ih =>
    intro r hr hval n
    have hvx : x.lo ≤ x.hi := hval x (by simp)
    have hvxs : ∀ y ∈ xs, y.lo ≤ y.hi := fun y hy => hval y (by simp [hy])
    simp only [insertRange]
    by_cases h1 : x.hi + 1 < r.lo
    · rw [if_pos h1, covered_cons, covered_cons, ih r hr hvxs n]
      tauto
    · rw [if_neg h1]
      by_cases h2 : r.hi + 1 < x.lo
      · rw [if_pos h2, covered_cons, covered_cons]
        tauto
      · rw [if_neg h2]
        rw [ih _ (by show min r.lo x.lo ≤ max r.hi x.hi; omega) hvxs n, covered_cons]
        have hmerge : memN n ⟨min r.lo x.lo, max r.hi x.hi⟩ ↔ memN n r ∨ memN n x := by
          unfold memN
          show min r.lo x.lo ≤ n ∧ n ≤ max r.hi x.hi ↔ _
          omega
        rw [hmerge]
        tauto

theorem canon_ext :
    ∀ (l l2 : List NRange), Canon l → Canon l2 →
      (∀ n, covered n l ↔ covered n l2) → l = l2 := by
  intro l
  induction l with
  | nil =>
    intro l2 _ hc2 hcov
    cases l2 with
    | nil => rfl
    | cons b t2 =>
      exfalso
      have hvb : b.lo ≤ b.hi := hc2.1 b (by simp)
      exact covered_nil b.lo ((hcov b.lo).mpr ⟨b, by simp, le_refl _, hvb⟩)
  | cons a t ih =>
    intro l2 hc hc2 hcov
    cases l2 with
    | nil =>
      exfalso
      have hva : a.lo ≤ a.hi := hc.1 a (by simp)
      exact covered_nil a.lo ((hcov a.lo).mp ⟨a, by simp, le_refl _, hva⟩)
    | cons b t2 =>
      obtain ⟨hval, hpw⟩ := hc
      obtain ⟨hval2, hpw2⟩ := hc2
      have hgapa : ∀ y ∈ t, a.hi + 1 < y.lo := (List.pairwise_cons.mp hpw).1
      have hgapb : ∀ y ∈ t2, b.hi + 1 < y.lo := (List.pairwise_cons.mp hpw2).1
      have hva : a.lo ≤ a.hi := hval a (by simp)
      have hvb : b.lo ≤ b.hi := hval2 b (by simp)
      have hblo : b.lo ≤ a.lo := by
        obtain ⟨r, hr, hm1, hm2⟩ := (hcov a.lo).mp ⟨a, by simp, le_refl _, hva⟩
        rcases List.mem_cons.mp hr with rfl | hr
        · exact hm1
        · have := hgapb r hr
          exfalso
          -- r.lo ≤ a.lo and b.hi + 1 < r.lo means b.lo covered? derive contradiction:
          -- b.lo is covered in l, so some s in a :: t holds it; s.lo ≤ b.lo ≤ a.lo
          obtain ⟨s, hs, hn1, hn2⟩ := (hcov b.lo).mpr ⟨b, by simp, le_refl _, hvb⟩
          rcases List.mem_cons.mp hs with rfl | hs
          · -- a covers b.lo: a.lo ≤ b.lo; but r ∈ t2 covers a.lo with b.hi+1 < r.lo ≤ a.lo,
            -- so b.lo ≤ a.lo is fine; contradiction: b.lo ≤ b.hi < r.lo ≤ a.lo ≤ b.lo? no:
            -- a.lo ≥ r.lo > b.hi + 1 > b.hi ≥ b.lo ≥ a.lo gives a.lo > a.lo
            omega
          · have := hgapa s hs
            -- s.lo > a.hi + 1 but s.lo ≤ b.lo ≤ b.hi < r.lo ≤ a.lo ≤ a.hi
            omega
      have halo : a.lo ≤ b.lo := by
        obtain ⟨r, hr, hm1, hm2⟩ := (hcov b.lo).mpr ⟨b, by simp, le_refl _, hvb⟩
        rcases List.mem_cons.mp hr with rfl | hr
        · exact hm1
        · have := hgapa r hr
          exfalso
          obtain ⟨s, hs, hn1, hn2⟩ := (hcov a.lo).mp ⟨a, by simp, le_refl _, hva⟩
          rcases List.mem_cons.mp hs with rfl | hs
          · omega
          · have := hgapb s hs
            omega
      have hhi1 : a.hi ≤ b.hi := by
        by_contra hlt
        push_neg at hlt
        obtain ⟨r, hr, hm1, hm2⟩ :=
          (hcov (b.hi + 1)).mp ⟨a, by simp, by omega, by omega⟩
        rcases List.mem_cons.mp hr with rfl | hr
        · omega
        · have := hgapb r hr
          omega
      have hhi2 : b.hi ≤ a.hi := by
        by_contra hlt
        push_neg at hlt
        obtain ⟨r, hr, hm1, hm2⟩ :=
          (hcov (a.hi + 1)).mpr ⟨b, by simp, by omega, by omega⟩
        rcases List.mem_cons.mp hr with rfl | hr
        · omega
        · have := hgapa r hr
          omega
      have hcovt : ∀ n, covered n t ↔ covered n t2 := by
        intro n
        constructor
        · rintro ⟨r, hr, hm1, hm2⟩
          have hrlo := hgapa r hr
          obtain ⟨s, hs, hn1, hn2⟩ := (hcov n).mp ⟨r, by simp [hr], hm1, hm2⟩
          rcases List.mem_cons.mp hs with rfl | hs
          · omega
          · exact ⟨s, hs, hn1, hn2⟩
        · rintro ⟨r, hr, hm1, hm2⟩
          have hrlo := hgapb r hr
          obtain ⟨s, hs, hn1, hn2⟩ := (hcov n).mpr ⟨r, by simp [hr], hm1, hm2⟩
          rcases List.mem_cons.mp hs with rfl | hs
          · omega
          · exact ⟨s, hs, hn1, hn2⟩
      have hteq : t = t2 :=
        ih t2 ⟨fun y hy => hval y (by simp [hy]), (List.pairwise_cons.mp hpw).2⟩
          ⟨fun y hy => hval2 y (by simp [hy]), (List.pairwise_cons.mp hpw2).2⟩ hcovt
      have hab : a = b := by
        obtain ⟨alo, ahi⟩ := a
        obtain ⟨blo, bhi⟩ := b
        simp only at hblo halo hhi1 hhi2
        simp only [NRange.mk.injEq]
        omega
      rw [hab, hteq]

theorem nrange_valid (p : Pfx) : p.nrange.lo ≤ p.nrange.hi := by
  have hs : 0 < p.size := Nat.pos_pow_of_pos _ (by norm_num)
  show famOff p.addr.fam + p.base ≤ famOff p.addr.fam + p.base + p.size - 1
  omega

theorem canon_nil : Canon [] := ⟨by simp, by simp⟩

theorem mergeAux_canon :
    ∀ (ps : List Pfx) (s : List NRange), Canon s →
      Canon (ps.foldl (fun s p => insertRange p.nrange s) s) := by
  intro ps
  induction ps with
  | nil => intro s hs; exact hs
  | cons q ps ih =>
    intro s hs
    exact ih _ (insertRange_canon s q.nrange (nrange_valid q) hs)

theorem mergeAux_covered :
    ∀ (ps : List Pfx) (s : List NRange), Canon s → ∀ n,
      covered n (ps.foldl (fun s p => insertRange p.nrange s) s) ↔
        covered n s ∨ ∃ p ∈ ps, memN n p.nrange := by
  intro ps
  induction ps with
  | nil => intro s _ n; simp
  | cons q ps ih =>
    intro s hs n
    have hstep : Canon (insertRange q.nrange s) :=
      insertRange_canon s q.nrange (nrange_valid q) hs
    rw [List.foldl_cons, ih _ hstep n,
      covered_insertRange s q.nrange (nrange_valid q) hs.1 n]
    simp only [List.mem_cons, exists_eq_or_imp]
    tauto

theorem merge_covered (ps : List Pfx) (n : Nat) :
    covered n (MergePrefixes ps) ↔ ∃ p ∈ ps, memN n p.nrange := by
  unfold MergePrefixes
  rw [mergeAux_covered ps [] canon_nil n]
  have := covered_nil n
  tauto

theorem merge_canon (ps : List Pfx) : Canon (MergePrefixes ps) :=
  mergeAux_canon ps [] canon_nil

/-- C2: the finalized Canonical Set is identical for any two
permutations of the same multiset of prefix insertions — as the internal
range list and hence also as the range view and the prefix view. -/
theorem merge_order_independent (ps qs : List Pfx) (h : ps.Perm qs) :
    MergePrefixes ps = MergePrefixes qs ∧
    rangeView (MergePrefixes ps) = rangeView (MergePrefixes qs) ∧
    prefixView (MergePrefixes ps) = prefixView (MergePrefixes qs) := by
  have hmain : MergePrefixes ps = MergePrefixes qs := by
    apply canon_ext _ _ (merge_canon ps) (merge_canon qs)
    intro n
    rw [merge_covered ps n, merge_covered qs n]
    constructor
    · rintro ⟨p, hp, hm⟩
      exact ⟨p, h.mem_iff.mp hp, hm⟩
    · rintro ⟨p, hp, hm⟩
      exact ⟨p, h.mem_iff.mpr hp, hm⟩
  exact ⟨hmain, by rw [hmain], by rw [hmain]⟩

/-- Witness for C2: two insertions of concrete 4-variant prefixes in the
two possible orders produce the same Canonical Set. -/
theorem merge_order_independent_witness :
    ([⟨⟨.v4, 0xC0A80100⟩, 25⟩, ⟨⟨.v4, 0xC0A80180⟩, 25⟩] : List Pfx).Perm
      [⟨⟨.v4, 0xC0A80180⟩, 25⟩, ⟨⟨.v4, 0xC0A80100⟩, 25⟩] ∧
    MergePrefixes [⟨⟨.v4, 0xC0A80100⟩, 25⟩, ⟨⟨.v4, 0xC0A80180⟩, 25⟩] =
      MergePrefixes [⟨⟨.v4, 0xC0A80180⟩, 25⟩, ⟨⟨.v4, 0xC0A80100⟩, 25⟩] :=
  ⟨List.Perm.swap _ _ _,
    (merge_order_independent _ _ (List.Perm.swap _ _ _)).1⟩

/-- C8: inserting a second copy of a prefix already present anywhere in
the input list leaves the finalized Canonical Set unchanged. -/
theorem merge_idempotent (ps1 ps2 : List Pfx) (p : Pfx) (hp : p ∈ ps1 ++ ps2) :
    MergePrefixes (ps1 ++ p :: ps2) = MergePrefixes (ps1 ++ ps2) := by
  apply canon_ext _ _ (merge_canon _) (merge_canon _)
  intro n
  rw [merge_covered _ n, merge_covered _ n]
  constructor
  · rintro ⟨q, hq, hm⟩
    rcases List.mem_append.mp hq with hq1 | hq2
    · exact ⟨q, List.mem_append.mpr (Or.inl hq1), hm⟩
    · rcases List.mem_cons.mp hq2 with rfl | hq2
      · exact ⟨q, hp, hm⟩
      · exact ⟨q, List.mem_append.mpr (Or.inr hq2), hm⟩
  · rintro ⟨q, hq, hm⟩
    rcases List.mem_append.mp hq with hq1 | hq2
    · exact ⟨q, List.mem_append.mpr (Or.inl hq1), hm⟩
    · exact ⟨q, List.mem_append.mpr (Or.inr (List.mem_cons_of_mem _ hq2)), hm⟩

/-- Witness for C8 at a concrete duplicated prefix. -/
theorem merge_idempotent_witness :
    (⟨⟨.v4, 5⟩, 32⟩ : Pfx) ∈ ([⟨⟨.v4, 5⟩, 32⟩] : List Pfx) ++ [⟨⟨.v6, 7⟩, 128⟩] ∧
    MergePrefixes ([⟨⟨.v4, 5⟩, 32⟩] ++ ⟨⟨.v4, 5⟩, 32⟩ :: [⟨⟨.v6, 7⟩, 128⟩]) =
      MergePrefixes ([⟨⟨.v4, 5⟩, 32⟩] ++ [⟨⟨.v6, 7⟩, 128⟩]) :=
  ⟨by decide, merge_idempotent [⟨⟨.v4, 5⟩, 32⟩] [⟨⟨.v6, 7⟩, 128⟩]
    ⟨⟨.v4, 5⟩, 32⟩ (by decide)⟩

theorem base_size_le (val bits W : Nat) (hval : val < 2 ^ W) (hb : bits ≤ W) :
    (val - val % 2 ^ (W - bits)) + 2 ^ (W - bits) ≤ 2 ^ W := by
  set S := 2 ^ (W - bits) with hS
  have hSpos : 0 < S := Nat.pos_pow_of_pos _ (by norm_num)
  have hdvd : S ∣ 2 ^ W := by
    rw [hS]; exact pow_dvd_pow 2 (by omega)
  have hbase : val - val % S = S * (val / S) := by
    have := Nat.div_add_mod val S
    omega
  have hdvdbase : S ∣ (val - val % S) := by
    rw [hbase]; exact Dvd.intro _ rfl
  have hlt : val - val % S < 2 ^ W := by omega
  have hsub : S ∣ (2 ^ W - (val - val % S)) := Nat.dvd_sub' hdvd hdvdbase
  have hpos : 0 < 2 ^ W - (val - val % S) := by omega
  have := Nat.le_of_dvd hpos hsub
  omega

theorem nrange_pure (p : Pfx) (hv : p.IsValid) : BandPure p.nrange := by
  refine ⟨nrange_valid p, ?_⟩
  obtain ⟨⟨fam, val⟩, bits⟩ := p
  obtain ⟨hb, hval⟩ := hv
  cases fam with
  | v4 =>
    left
    have hval32 : val < 2 ^ 32 := hval
    have hb32 : bits ≤ 32 := hb
    have h := base_size_le val bits 32 hval32 hb32
    show famOff .v4 + (val - val % 2 ^ (32 - bits)) + 2 ^ (32 - bits) - 1 < 2 ^ 32
    have hoff : famOff .v4 = 0 := rfl
    omega
  | v6 =>
    right
    show 2 ^ 32 < famOff .v6 + (val - val % 2 ^ (128 - bits))
    have hoff : famOff .v6 = 2 ^ 32 + 1 := rfl
    omega

theorem insertRange_pure :
    ∀ (l : List NRange) (r : NRange), BandPure r → (∀ y ∈ l, BandPure y) →
      ∀ s ∈ insertRange r l, BandPure s := by
  intro l
  induction l with
  | nil =>
    intro r hr _ s hs
    simp only [insertRange, List.mem_singleton] at hs
    exact hs ▸ hr
  | cons x xs ih =>
    intro r hr hl s hs
    have hx : BandPure x := hl x (by simp)
    simp only [insertRange] at hs
    by_cases h1 : x.hi + 1 < r.lo
    · rw [if_pos h1] at hs
      rcases List.mem_cons.mp hs with rfl | hs
      · exact hx
      · exact ih r hr (fun y hy => hl y (by simp [hy])) s hs
    · rw [if_neg h1] at hs
      by_cases h2 : r.hi + 1 < x.lo
      · rw [if_pos h2] at hs
        rcases List.mem_cons.mp hs with rfl | hs
        · exact hr
        · exact hl s hs
      · rw [if_neg h2] at hs
        refine ih _ ?_ (fun y hy => hl y (by simp [hy])) s hs
        obtain ⟨hr1, hr2⟩ := hr
        obtain ⟨hx1, hx2⟩ := hx
        refine ⟨by show min r.lo x.lo ≤ max r.hi x.hi; omega, ?_⟩
        show max r.hi x.hi < 2 ^ 32 ∨ 2 ^ 32 < min r.lo x.lo
        rcases hr2 with hr2 | hr2 <;> rcases hx2 with hx2 | hx2 <;> omega

theorem mergeAux_pure :
    ∀ (ps : List Pfx) (s : List NRange), (∀ p ∈ ps, p.IsValid) →
      (∀ y ∈ s, BandPure y) →
      ∀ y ∈ ps.foldl (fun s p => insertRange p.nrange s) s, BandPure y := by
  intro ps
  induction ps with
  | nil => intro s _ hs; exact hs
  | cons q ps ih =>
    intro s hv hs
    exact ih _ (fun p hp => hv p (by simp [hp]))
      (insertRange_pure s q.nrange (nrange_pure q (hv q (by simp))) hs)

theorem unidx_lt (n : Nat) (h : n < 2 ^ 32) : unidx n = ⟨.v4, n⟩ := by
  unfold unidx; rw [if_pos h]

theorem unidx_ge (n : Nat) (h : 2 ^ 32 ≤ n) : unidx n = ⟨.v6, n - (2 ^ 32 + 1)⟩ := by
  unfold unidx; rw [if_neg (by omega)]

theorem addrLt_same (f : Fam) (u v : Nat) (h : u < v) : addrLt ⟨f, u⟩ ⟨f, v⟩ :=
  Or.inr ⟨rfl, h⟩

theorem addrLt_cross (u v : Nat) : addrLt ⟨.v4, u⟩ ⟨.v6, v⟩ :=
  Or.inl ⟨rfl, rfl⟩

theorem rangeView_chains :
    ∀ (l : List NRange), Canon l → (∀ r ∈ l, BandPure r) →
      List.Chain' (fun x y => addrLt x.1 y.1) (rangeView l) ∧
      List.Chain' (fun x y => x.2.fam = y.1.fam → x.2.val + 1 < y.1.val)
        (rangeView l) := by
  intro l
  induction l with
  | nil => exact fun _ _ => ⟨List.chain'_nil, List.chain'_nil⟩
  | cons x t ih =>
    intro hc hp
    obtain ⟨hval, hpw⟩ := hc
    have hpx : BandPure x := hp x (by simp)
    have iht := ih ⟨fun y hy => hval y (by simp [hy]), (List.pairwise_cons.mp hpw).2⟩
      (fun y hy => hp y (by simp [hy]))
    cases t with
    | nil => exact ⟨by simp [rangeView], by simp [rangeView]⟩
    | cons y t2 =>
      have hpy : BandPure y := hp y (by simp)
      have hgap : x.hi + 1 < y.lo := ((List.pairwise_cons.mp hpw).1) y (by simp)
      obtain ⟨hx1, hx2⟩ := hpx
      obtain ⟨hy1, hy2⟩ := hpy
      have hview : rangeView (x :: y :: t2) = (unidx x.lo, unidx x.hi) ::
          (unidx y.lo, unidx y.hi) :: rangeView t2 := rfl
      refine ⟨?_, ?_⟩
      · rw [hview, List.chain'_cons]
        refine ⟨?_, iht.1⟩
        rcases hx2 with hx2 | hx2
        · rw [unidx_lt x.lo (by omega)]
          rcases hy2 with hy2 | hy2
          · rw [unidx_lt y.lo (by omega)]
            exact addrLt_same .v4 x.lo y.lo (by omega)
          · rw [unidx_ge y.lo (by omega)]
            exact addrLt_cross _ _
        · rcases hy2 with hy2 | hy2
          · exfalso; omega
          · rw [unidx_ge x.lo (by omega), unidx_ge y.lo (by omega)]
            exact addrLt_same .v6 _ _ (by omega)
      · rw [hview, List.chain'_cons]
        refine ⟨?_, iht.2⟩
        rcases hx2 with hx2 | hx2
        · rw [unidx_lt x.hi (by omega)]
          rcases hy2 with hy2 | hy2
          · rw [unidx_lt y.lo (by omega)]
            exact fun _ => hgap
          · rw [unidx_ge y.lo (by omega)]
            intro hf
            exact Fam.noConfusion hf
        · rcases hy2 with hy2 | hy2
          · exfalso; omega
          · rw [unidx_ge x.hi (by omega), unidx_ge y.lo (by omega)]
            intro _
            show x.hi - (2 ^ 32 + 1) + 1 < y.lo - (2 ^ 32 + 1)
            omega

/-- C3: the range view of any merge result satisfies the Canonical Set
invariant — ranges sorted ascending by their from-address (4-variant
before 6-variant, then by value), and any two consecutive ranges of the
same family separated by a strict gap `to + 1 < from`, so no two ranges
touch or overlap. -/
theorem merge_canonical_invariant (ps : List Pfx) (hv : ∀ p ∈ ps, p.IsValid) :
    List.Chain' (fun x y => addrLt x.1 y.1) (rangeView (MergePrefixes ps)) ∧
    List.Chain' (fun x y => x.2.fam = y.1.fam → x.2.val + 1 < y.1.val)
      (rangeView (MergePrefixes ps)) :=
  rangeView_chains (MergePrefixes ps) (merge_canon ps)
    (mergeAux_pure ps [] hv (by simp))

/-- Witness for C3 at a concrete mixed-family input. -/
theorem merge_canonical_invariant_witness :
    (∀ p ∈ ([⟨⟨.v4, 5⟩, 32⟩, ⟨⟨.v6, 7⟩, 128⟩, ⟨⟨.v4, 9⟩, 30⟩] : List Pfx),
      p.IsValid) ∧
    (List.Chain' (fun x y => addrLt x.1 y.1)
      (rangeView (MergePrefixes
        [⟨⟨.v4, 5⟩, 32⟩, ⟨⟨.v6, 7⟩, 128⟩, ⟨⟨.v4, 9⟩, 30⟩])) ∧
     List.Chain' (fun x y => x.2.fam = y.1.fam → x.2.val + 1 < y.1.val)
      (rangeView (MergePrefixes
        [⟨⟨.v4, 5⟩, 32⟩, ⟨⟨.v6, 7⟩, 128⟩, ⟨⟨.v4, 9⟩, 30⟩]))) :=
  ⟨by decide, merge_canonical_invariant _ (by decide)⟩

theorem ntz_dvd (n : Nat) : 2 ^ ntz n ∣ n := by
  induction n using Nat.strong_induction_on with
  | _ n ih =>
    rw [ntz]
    split
    next => simp
    next hn0 =>
      split
      next => simp
      next hodd =>
        have hlt : n / 2 < n := Nat.div_lt_self (by omega) (by omega)
        obtain ⟨k, hk⟩ := ih (n / 2) hlt
        refine ⟨k, ?_⟩
        have h2 : 2 ^ (ntz (n / 2) + 1) * k = 2 * (2 ^ ntz (n / 2) * k) := by
          ring
        rw [h2, ← hk]
        omega

theorem ntz_succ_not_dvd (n : Nat) (h : n ≠ 0) : ¬ 2 ^ (ntz n + 1) ∣ n := by
  induction n using Nat.strong_induction_on with
  | _ n ih =>
    rw [ntz]
    split
    next h0 => exact absurd h0 h
    next hn0 =>
      split
      next hodd =>
        intro hd
        have h2 : (2 : Nat) ∣ n := dvd_trans (by norm_num) hd
        omega
      next hodd =>
        intro hd
        have hlt : n / 2 < n := Nat.div_lt_self (by omega) (by omega)
        have hn2 : n / 2 ≠ 0 := by omega
        apply ih (n / 2) hlt hn2
        obtain ⟨k, hk⟩ := hd
        refine ⟨k, ?_⟩
        have h5 : 2 ^ (ntz (n / 2) + 1 + 1) * k = 2 * (2 ^ (ntz (n / 2) + 1) * k) := by
          ring
        rw [h5] at hk
        generalize hm : 2 ^ (ntz (n / 2) + 1) * k = m at hk ⊢
        omega

theorem ntz_le_of_dvd (n e : Nat) (hn : n ≠ 0) (h : 2 ^ e ∣ n) : e ≤ ntz n := by
  by_contra hlt
  push_neg at hlt
  exact ntz_succ_not_dvd n hn (dvd_trans (pow_dvd_pow 2 (by omega)) h)

theorem ntz_eq_of (n e : Nat) (h1 : 2 ^ e ∣ n) (h2 : ¬ 2 ^ (e + 1) ∣ n) : ntz n = e := by
  have hn : n ≠ 0 := by rintro rfl; exact h2 (dvd_zero _)
  have hle : e ≤ ntz n := ntz_le_of_dvd n e hn h1
  by_contra hne
  have hgt : e + 1 ≤ ntz n := by omega
  exact h2 (dvd_trans (pow_dvd_pow 2 hgt) (ntz_dvd n))

theorem mod_two_pow_succ_of (c e : Nat) (h1 : 2 ^ e ∣ c) (h2 : ¬ 2 ^ (e + 1) ∣ c) :
    c % 2 ^ (e + 1) = 2 ^ e := by
  obtain ⟨m, rfl⟩ := h1
  have hm : m % 2 = 1 := by
    by_contra hodd
    apply h2
    refine ⟨m / 2, ?_⟩
    have h3 : m = 2 * (m / 2) := by omega
    calc 2 ^ e * m = 2 ^ e * (2 * (m / 2)) := by rw [← h3]
      _ = 2 ^ (e + 1) * (m / 2) := by ring
  have hsplit : 2 ^ e * m = 2 ^ e + 2 ^ (e + 1) * (m / 2) := by
    have hh : m = 2 * (m / 2) + 1 := by omega
    calc 2 ^ e * m = 2 ^ e * (2 * (m / 2) + 1) := by rw [← hh]
      _ = 2 ^ e + 2 ^ (e + 1) * (m / 2) := by ring
  have hlt : (2 : Nat) ^ e < 2 ^ (e + 1) := by
    have hp : (2 : Nat) ^ (e + 1) = 2 * 2 ^ e := by ring
    have h1 : 1 ≤ (2 : Nat) ^ e := Nat.one_le_two_pow
    omega
  rw [hsplit, Nat.add_mul_mod_self_left]
  exact Nat.mod_eq_of_lt hlt

theorem mod_eq_sub_of_dvd (A c j : Nat) (hd : 2 ^ j ∣ A) (h1 : A ≤ c)
    (h2 : c - A < 2 ^ j) : c % 2 ^ j = c - A := by
  obtain ⟨k, rfl⟩ := hd
  have hc : c = 2 ^ j * k + (c - 2 ^ j * k) := by omega
  conv_lhs => rw [hc]
  rw [Nat.mul_add_mod]
  exact Nat.mod_eq_of_lt h2

theorem decompose_pos (f : Fam) (c toN : Nat) (h : c ≤ toN) :
    decompose f c toN =
      ⟨⟨f, c⟩, f.width - min (aexp f.width c) (Nat.log 2 (toN - c + 1))⟩ ::
        decompose f (c + 2 ^ min (aexp f.width c) (Nat.log 2 (toN - c + 1))) toN := by
  rw [decompose]
  rw [dif_pos h]

theorem decompose_neg (f : Fam) (c toN : Nat) (h : ¬ c ≤ toN) :
    decompose f c toN = [] := by
  rw [decompose, dif_neg h]

theorem aexp_dvd (W c e : Nat) (he : e ≤ aexp W c) : 2 ^ e ∣ c := by
  by_cases h0 : c = 0
  · subst h0; exact dvd_zero _
  · unfold aexp at he
    rw [if_neg h0] at he
    exact dvd_trans (pow_dvd_pow 2 he) (ntz_dvd c)

theorem eexp_span (W c toN : Nat) (hc : c ≤ toN) :
    2 ^ min (aexp W c) (Nat.log 2 (toN - c + 1)) ≤ toN - c + 1 :=
  le_trans (Nat.pow_le_pow_right (by norm_num) (min_le_right _ _))
    (Nat.pow_log_le_self 2 (by omega))

theorem eexp_le_width (f : Fam) (c toN : Nat) (hc : c ≤ toN) (hW : toN < 2 ^ f.width) :
    min (aexp f.width c) (Nat.log 2 (toN - c + 1)) ≤ f.width := by
  have hle : toN - c + 1 ≤ 2 ^ f.width := by omega
  calc min (aexp f.width c) (Nat.log 2 (toN - c + 1))
      ≤ Nat.log 2 (toN - c + 1) := min_le_right _ _
    _ ≤ Nat.log 2 (2 ^ f.width) := Nat.log_mono_right hle
    _ = f.width := Nat.log_pow (show (1 : Nat) < 2 by norm_num) f.width

theorem decompose_mem (f : Fam) :
    ∀ (k c toN : Nat), toN + 1 - c ≤ k → toN < 2 ^ f.width →
      ∀ p ∈ decompose f c toN,
        p.addr.fam = f ∧ c ≤ p.addr.val ∧
        ∃ e, e ≤ f.width ∧ p.bits = f.width - e ∧ 2 ^ e ∣ p.addr.val ∧
          p.addr.val + 2 ^ e - 1 ≤ toN := by
  intro k
  induction k with
  | zero =>
    intro c toN hk hW p hp
    rw [decompose_neg f c toN (by omega)] at hp
    simp at hp
  | succ k ih =>
    intro c toN hk hW p hp
    by_cases hc : c ≤ toN
    · rw [decompose_pos f c toN hc] at hp
      set e := min (aexp f.width c) (Nat.log 2 (toN - c + 1)) with he
      have hspan : 2 ^ e ≤ toN - c + 1 := eexp_span f.width c toN hc
      have hepos : 1 ≤ 2 ^ e := Nat.one_le_two_pow
      rcases List.mem_cons.mp hp with rfl | hp
      · exact ⟨rfl, le_refl _, e, eexp_le_width f c toN hc hW, rfl,
          aexp_dvd f.width c e (min_le_left _ _),
          by show c + 2 ^ e - 1 ≤ toN; omega⟩
      · obtain ⟨h1, h2, e2, h3⟩ := ih (c + 2 ^ e) toN (by omega) hW p hp
        exact ⟨h1, by omega, e2, h3⟩
    · rw [decompose_neg f c toN hc] at hp
      simp at hp

theorem decompose_mem_all (f : Fam) (c toN : Nat) (hW : toN < 2 ^ f.width) :
    ∀ p ∈ decompose f c toN,
      p.addr.fam = f ∧ c ≤ p.addr.val ∧
      ∃ e, e ≤ f.width ∧ p.bits = f.width - e ∧ 2 ^ e ∣ p.addr.val ∧
        p.addr.val + 2 ^ e - 1 ≤ toN :=
  decompose_mem f (toN + 1 - c) c toN (le_refl _) hW

theorem decompose_cover (f : Fam) :
    ∀ (k c toN : Nat), toN + 1 - c ≤ k → toN < 2 ^ f.width → ∀ n,
      ((∃ p ∈ decompose f c toN, p.addr.val ≤ n ∧ n ≤ blockEnd p) ↔
        (c ≤ n ∧ n ≤ toN)) := by
  intro k
  induction k with
  | zero =>
    intro c toN hk hW n
    rw [decompose_neg f c toN (by omega)]
    simp
    omega
  | succ k ih =>
    intro c toN hk hW n
    by_cases hc : c ≤ toN
    · rw [decompose_pos f c toN hc]
      set e := min (aexp f.width c) (Nat.log 2 (toN - c + 1)) with he
      have hspan : 2 ^ e ≤ toN - c + 1 := eexp_span f.width c toN hc
      have hepos : 1 ≤ 2 ^ e := Nat.one_le_two_pow
      have heW : e ≤ f.width := eexp_le_width f c toN hc hW
      have haddr : (⟨⟨f, c⟩, f.width - e⟩ : Pfx).addr.val = c := rfl
      have hble : blockEnd ⟨⟨f, c⟩, f.width - e⟩ = c + 2 ^ e - 1 := by
        show c + 2 ^ (f.width - (f.width - e)) - 1 = c + 2 ^ e - 1
        have hww : f.width - (f.width - e) = e := by omega
        rw [hww]
      constructor
      · rintro ⟨p, hp, h1, h2⟩
        rcases List.mem_cons.mp hp with rfl | hp
        · rw [haddr] at h1
          rw [hble] at h2
          omega
        · have := (ih (c + 2 ^ e) toN (by omega) hW n).mp ⟨p, hp, h1, h2⟩
          omega
      · rintro ⟨h1, h2⟩
        by_cases hn : n ≤ c + 2 ^ e - 1
        · refine ⟨⟨⟨f, c⟩, f.width - e⟩, by simp, ?_, ?_⟩
          · rw [haddr]; exact h1
          · rw [hble]; exact hn
        · obtain ⟨p, hp, hh⟩ := (ih (c + 2 ^ e) toN (by omega) hW n).mpr ⟨by omega, h2⟩
          exact ⟨p, List.mem_cons_of_mem _ hp, hh⟩
    · rw [decompose_neg f c toN hc]
      simp
      omega

theorem decompose_pairwise (f : Fam) :
    ∀ (k c toN : Nat), toN + 1 - c ≤ k → toN < 2 ^ f.width →
      (decompose f c toN).Pairwise (fun p q => blockEnd p < q.addr.val) := by
  intro k
  induction k with
  | zero =>
    intro c toN hk hW
    rw [decompose_neg f c toN (by omega)]
    exact List.Pairwise.nil
  | succ k ih =>
    intro c toN hk hW
    by_cases hc : c ≤ toN
    · rw [decompose_pos f c toN hc]
      set e := min (aexp f.width c) (Nat.log 2 (toN - c + 1)) with he
      have hspan : 2 ^ e ≤ toN - c + 1 := eexp_span f.width c toN hc
      have hepos : 1 ≤ 2 ^ e := Nat.one_le_two_pow
      have heW : e ≤ f.width := eexp_le_width f c toN hc hW
      have hble : blockEnd ⟨⟨f, c⟩, f.width - e⟩ = c + 2 ^ e - 1 := by
        show c + 2 ^ (f.width - (f.width - e)) - 1 = c + 2 ^ e - 1
        have hww : f.width - (f.width - e) = e := by omega
        rw [hww]
      rw [List.pairwise_cons]
      refine ⟨?_, ih (c + 2 ^ e) toN (by omega) hW⟩
      intro q hq
      obtain ⟨_, hq2, _⟩ := decompose_mem f k (c + 2 ^ e) toN (by omega) hW q hq
      rw [hble]
      omega
    · rw [decompose_neg f c toN hc]
      exact List.Pairwise.nil

theorem decompose_single (f : Fam) (c e : Nat) (hd : 2 ^ e ∣ c) (he : e ≤ f.width) :
    decompose f c (c + 2 ^ e - 1) = [⟨⟨f, c⟩, f.width - e⟩] := by
  have hepos : 1 ≤ 2 ^ e := Nat.one_le_two_pow
  rw [decompose_pos f c _ (by omega)]
  have hspan : c + 2 ^ e - 1 - c + 1 = 2 ^ e := by omega
  rw [hspan]
  have hlog : Nat.log 2 (2 ^ e) = e := Nat.log_pow (show (1 : Nat) < 2 by norm_num) e
  rw [hlog]
  have haexp : e ≤ aexp f.width c := by
    by_cases h0 : c = 0
    · subst h0; unfold aexp; rw [if_pos rfl]; exact he
    · unfold aexp; rw [if_neg h0]; exact ntz_le_of_dvd c e h0 hd
  have hmin : min (aexp f.width c) e = e := by omega
  rw [hmin]
  rw [decompose_neg f _ _ (by omega)]

/-- C4: for any valid Range of one family, the decomposition is sorted
ascending, pairwise disjoint, covers exactly the range, and
re-decomposing any emitted prefix's own range yields that single prefix
unchanged. -/
theorem decompose_exact_cover (f : Fam) (fr toN : Nat) (h1 : fr ≤ toN)
    (h2 : toN < 2 ^ f.width) :
    (decompose f fr toN).Pairwise (fun p q => p.addr.val < q.addr.val) ∧
    (decompose f fr toN).Pairwise
      (fun p q => blockEnd p < q.addr.val ∨ blockEnd q < p.addr.val) ∧
    (∀ n, (∃ p ∈ decompose f fr toN, p.addr.val ≤ n ∧ n ≤ blockEnd p) ↔
      (fr ≤ n ∧ n ≤ toN)) ∧
    (∀ p ∈ decompose f fr toN, decompose f p.addr.val (blockEnd p) = [p]) := by
  have hpw := decompose_pairwise f (toN + 1 - fr) fr toN (le_refl _) h2
  refine ⟨?_, ?_, ?_, ?_⟩
  · refine hpw.imp ?_
    intro a b h
    have ha : 1 ≤ 2 ^ (a.addr.fam.width - a.bits) := Nat.one_le_two_pow
    unfold blockEnd at h
    omega
  · exact hpw.imp Or.inl
  · exact decompose_cover f (toN + 1 - fr) fr toN (le_refl _) h2
  · intro p hp
    obtain ⟨hfam, hcle, e, heW, hbits, hdvd, hend⟩ := decompose_mem_all f fr toN h2 p hp
    have hble : blockEnd p = p.addr.val + 2 ^ e - 1 := by
      unfold blockEnd
      rw [hfam, hbits]
      have hww : f.width - (f.width - e) = e := by omega
      rw [hww]
    rw [hble, decompose_single f p.addr.val e hdvd heW]
    obtain ⟨⟨fam2, val2⟩, bits2⟩ := p
    simp only at hfam hbits
    rw [hfam, hbits]

/-- Witness for C4 at the concrete 4-variant range [1, 6]. -/
theorem decompose_exact_cover_witness :
    (1 : Nat) ≤ 6 ∧ (6 : Nat) < 2 ^ Fam.width .v4 ∧
    ((decompose .v4 1 6).Pairwise (fun p q => p.addr.val < q.addr.val) ∧
     (decompose .v4 1 6).Pairwise
       (fun p q => blockEnd p < q.addr.val ∨ blockEnd q < p.addr.val) ∧
     (∀ n, (∃ p ∈ decompose .v4 1 6, p.addr.val ≤ n ∧ n ≤ blockEnd p) ↔
       (1 ≤ n ∧ n ≤ 6)) ∧
     (∀ p ∈ decompose .v4 1 6, decompose .v4 p.addr.val (blockEnd p) = [p])) :=
  ⟨by decide, by decide, decompose_exact_cover .v4 1 6 (by decide) (by decide)⟩

theorem aligned_block_end (x A j K : Nat) (hj : j ≤ K) (hx : 2 ^ j ∣ x)
    (hA : 2 ^ K ∣ A) (h1 : A ≤ x) (h2 : x - A < 2 ^ K) :
    x + 2 ^ j - 1 ≤ A + 2 ^ K - 1 := by
  have hdj : 2 ^ j ∣ (x - A) := Nat.dvd_sub' hx (dvd_trans (pow_dvd_pow 2 hj) hA)
  have hdK : 2 ^ j ∣ 2 ^ K := pow_dvd_pow 2 hj
  have hdd : 2 ^ j ∣ (2 ^ K - (x - A)) := Nat.dvd_sub' hdK hdj
  have hpos : 0 < 2 ^ K - (x - A) := by omega
  have := Nat.le_of_dvd hpos hdd
  omega

theorem noncomb_pair (f : Fam) (fr toN c : Nat) (hc : c ≤ toN) (hW : toN < 2 ^ f.width)
    (hInv : fr + 2 ^ aexp f.width c > c ∨ toN + 1 - c < 2 ^ aexp f.width c)
    (q : Pfx)
    (hqval : c + 2 ^ min (aexp f.width c) (Nat.log 2 (toN - c + 1)) ≤ q.addr.val) :
    noncomb f.width fr toN
      ⟨⟨f, c⟩, f.width - min (aexp f.width c) (Nat.log 2 (toN - c + 1))⟩ q := by
  intro A L hL hdA hAp hpend hAq hqend hfrA hendA
  set e := min (aexp f.width c) (Nat.log 2 (toN - c + 1)) with he
  set K := f.width - L with hK
  have hspan : 2 ^ e ≤ toN - c + 1 := eexp_span f.width c toN hc
  have hepos : 1 ≤ 2 ^ e := Nat.one_le_two_pow
  have hKpos : 1 ≤ 2 ^ K := Nat.one_le_two_pow
  have hqblock : 1 ≤ 2 ^ (q.addr.fam.width - q.bits) := Nat.one_le_two_pow
  have hAc : A ≤ c := hAp
  have hqe : q.addr.val ≤ blockEnd q := by
    unfold blockEnd
    omega
  have hc2e : c + 2 ^ e ≤ A + 2 ^ K - 1 := by omega
  have hcA : c - A < 2 ^ K := by omega
  have hKe : e + 1 ≤ K := by
    have hlt : 2 ^ e < 2 ^ K := by omega
    by_contra hh
    push_neg at hh
    have := Nat.pow_le_pow_right (show 1 ≤ 2 by norm_num) (show K ≤ e by omega)
    omega
  by_cases hdc : 2 ^ (e + 1) ∣ c
  · have haexp_gt : e < aexp f.width c := by
      by_cases h0 : c = 0
      · subst h0
        unfold aexp
        rw [if_pos rfl]
        omega
      · unfold aexp
        rw [if_neg h0]
        have := ntz_le_of_dvd c (e + 1) h0 hdc
        omega
    have heb : e = Nat.log 2 (toN - c + 1) := by omega
    have hlt2 : toN - c + 1 < 2 ^ (e + 1) := by
      rw [heb]
      exact Nat.lt_pow_succ_log_self (by norm_num) _
    have hend2 : c + 2 ^ (e + 1) - 1 ≤ A + 2 ^ K - 1 :=
      aligned_block_end c A (e + 1) K hKe hdc hdA hAc hcA
    have hp2 : (2 : Nat) ^ (e + 1) = 2 * 2 ^ e := by ring
    omega
  · have h0 : c ≠ 0 := by rintro rfl; exact hdc (dvd_zero _)
    have hde : 2 ^ e ∣ c := aexp_dvd f.width c e (min_le_left _ _)
    have hntz : ntz c = e := ntz_eq_of c e hde hdc
    have hInvA : fr + 2 ^ e > c := by
      rcases hInv with h | h
      · unfold aexp at h
        rw [if_neg h0, hntz] at h
        exact h
      · exfalso
        unfold aexp at h
        rw [if_neg h0, hntz] at h
        omega
    have hmod : c % 2 ^ (e + 1) = 2 ^ e := mod_two_pow_succ_of c e hde hdc
    have hmodK : c % 2 ^ K = c - A := mod_eq_sub_of_dvd A c K hdA hAc hcA
    have hmm : (c % 2 ^ K) % 2 ^ (e + 1) = 2 ^ e := by
      rw [Nat.mod_mod_of_dvd c (pow_dvd_pow 2 hKe)]
      exact hmod
    have hge : 2 ^ e ≤ c - A := by
      have hle := Nat.mod_le (c % 2 ^ K) (2 ^ (e + 1))
      omega
    omega

theorem inv_step (f : Fam) (fr toN c : Nat) (hc : c ≤ toN) (hW : toN < 2 ^ f.width)
    (hInv : fr + 2 ^ aexp f.width c > c ∨ toN + 1 - c < 2 ^ aexp f.width c)
    (hc2 : c + 2 ^ min (aexp f.width c) (Nat.log 2 (toN - c + 1)) ≤ toN) :
    fr + 2 ^ aexp f.width (c + 2 ^ min (aexp f.width c) (Nat.log 2 (toN - c + 1)))
        > c + 2 ^ min (aexp f.width c) (Nat.log 2 (toN - c + 1)) ∨
      toN + 1 - (c + 2 ^ min (aexp f.width c) (Nat.log 2 (toN - c + 1)))
        < 2 ^ aexp f.width (c + 2 ^ min (aexp f.width c) (Nat.log 2 (toN - c + 1))) := by
  set e := min (aexp f.width c) (Nat.log 2 (toN - c + 1)) with he
  set c2 := c + 2 ^ e with hc2d
  have hepos : 1 ≤ 2 ^ e := Nat.one_le_two_pow
  have hspan : 2 ^ e ≤ toN - c + 1 := eexp_span f.width c toN hc
  have hc2ne : c2 ≠ 0 := by omega
  have haexp2 : aexp f.width c2 = ntz c2 := by
    unfold aexp
    rw [if_neg hc2ne]
  by_cases hdc : 2 ^ (e + 1) ∣ c
  · have hde : 2 ^ e ∣ c := dvd_trans (pow_dvd_pow 2 (by omega)) hdc
    have hp2 : (2 : Nat) ^ (e + 1) = 2 * 2 ^ e := by ring
    have hntz2 : ntz c2 = e := by
      apply ntz_eq_of
      · rw [hc2d]
        exact dvd_add hde dvd_rfl
      · intro hdd
        rw [hc2d] at hdd
        have hsb : 2 ^ (e + 1) ∣ (c + 2 ^ e - c) := Nat.dvd_sub' hdd hdc
        have hsub : c + 2 ^ e - c = 2 ^ e := by omega
        rw [hsub] at hsb
        have := Nat.le_of_dvd (by omega) hsb
        omega
    have haexp_gt : e < aexp f.width c := by
      by_cases h0 : c = 0
      · subst h0
        unfold aexp
        rw [if_pos rfl]
        have h2 : (2 : Nat) ^ e < 2 ^ f.width := by omega
        by_contra hh
        push_neg at hh
        have := Nat.pow_le_pow_right (show 1 ≤ 2 by norm_num) hh
        omega
      · unfold aexp
        rw [if_neg h0]
        have := ntz_le_of_dvd c (e + 1) h0 hdc
        omega
    have heb : e = Nat.log 2 (toN - c + 1) := by omega
    have hlt2 : toN - c + 1 < 2 ^ (e + 1) := by
      rw [heb]
      exact Nat.lt_pow_succ_log_self (by norm_num) _
    right
    rw [haexp2, hntz2]
    omega
  · have h0 : c ≠ 0 := by rintro rfl; exact hdc (dvd_zero _)
    have hde : 2 ^ e ∣ c := aexp_dvd f.width c e (min_le_left _ _)
    have hntz : ntz c = e := ntz_eq_of c e hde hdc
    have hInvA : fr + 2 ^ e > c := by
      rcases hInv with h | h
      · unfold aexp at h
        rw [if_neg h0, hntz] at h
        exact h
      · exfalso
        unfold aexp at h
        rw [if_neg h0, hntz] at h
        omega
    left
    rw [haexp2]
    have hd2 : 2 ^ (e + 1) ∣ c2 := by
      obtain ⟨m, hm⟩ := hde
      have hmodd : m % 2 = 1 := by
        by_contra hev
        apply hdc
        refine ⟨m / 2, ?_⟩
        have hh : m = 2 * (m / 2) := by omega
        rw [hm]
        calc 2 ^ e * m = 2 ^ e * (2 * (m / 2)) := by rw [← hh]
          _ = 2 ^ (e + 1) * (m / 2) := by ring
      refine ⟨(m + 1) / 2, ?_⟩
      have hh : m + 1 = 2 * ((m + 1) / 2) := by omega
      rw [hc2d, hm]
      calc 2 ^ e * m + 2 ^ e = 2 ^ e * (m + 1) := by ring
        _ = 2 ^ e * (2 * ((m + 1) / 2)) := by rw [← hh]
        _ = 2 ^ (e + 1) * ((m + 1) / 2) := by ring
    have hge : e + 1 ≤ ntz c2 := ntz_le_of_dvd c2 (e + 1) hc2ne hd2
    have hmono := Nat.pow_le_pow_right (show 1 ≤ 2 by norm_num) hge
    have hp2 : (2 : Nat) ^ (e + 1) = 2 * 2 ^ e := by ring
    omega

theorem decompose_chain (f : Fam) :
    ∀ (k c toN fr : Nat), toN + 1 - c ≤ k → toN < 2 ^ f.width → fr ≤ c →
      (fr + 2 ^ aexp f.width c > c ∨ toN + 1 - c < 2 ^ aexp f.width c) →
      List.Chain' (noncomb f.width fr toN) (decompose f c toN) := by
  intro k
  induction k with
  | zero =>
    intro c toN fr hk hW hfr hInv
    rw [decompose_neg f c toN (by omega)]
    exact List.chain'_nil
  | succ k ih =>
    intro c toN fr hk hW hfr hInv
    by_cases hc : c ≤ toN
    · rw [decompose_pos f c toN hc]
      set e := min (aexp f.width c) (Nat.log 2 (toN - c + 1)) with he
      have hepos : 1 ≤ 2 ^ e := Nat.one_le_two_pow
      have hspan : 2 ^ e ≤ toN - c + 1 := eexp_span f.width c toN hc
      by_cases hc2 : c + 2 ^ e ≤ toN
      · have hInv2 := inv_step f fr toN c hc hW hInv hc2
        have htail := ih (c + 2 ^ e) toN fr (by omega) hW (by omega) hInv2
        rw [List.chain'_cons']
        refine ⟨?_, htail⟩
        intro b hb
        have hbmem : b ∈ decompose f (c + 2 ^ e) toN := by
          cases hl : decompose f (c + 2 ^ e) toN with
          | nil =>
            rw [hl] at hb
            simp at hb
          | cons b2 t2 =>
            rw [hl] at hb
            simp at hb
            exact List.mem_cons.mpr (Or.inl hb.symm)
        have hble := (decompose_mem_all f (c + 2 ^ e) toN hW b hbmem).2.1
        exact noncomb_pair f fr toN c hc hW hInv b hble
      · rw [decompose_neg f (c + 2 ^ e) toN (by omega)]
        simp
    · rw [decompose_neg f c toN hc]
      exact List.chain'_nil

/-- C5: the decomposition is minimal — for any two adjacent emitted
prefixes there is no single CIDR-aligned prefix contained in the range
that covers them both, so no two adjacent prefixes can be losslessly
combined into one larger prefix. -/
theorem decompose_minimality (f : Fam) (fr toN : Nat) (h1 : fr ≤ toN)
    (h2 : toN < 2 ^ f.width) :
    List.Chain' (noncomb f.width fr toN) (decompose f fr toN) := by
  apply decompose_chain f (toN + 1 - fr) fr toN fr (le_refl _) h2 (le_refl _)
  left
  have := Nat.one_le_two_pow (n := aexp f.width fr)
  omega

/-- Witness for C5 at the concrete 4-variant range [1, 6]. -/
theorem decompose_minimality_witness :
    (1 : Nat) ≤ 6 ∧ (6 : Nat) < 2 ^ Fam.width .v4 ∧
    List.Chain' (noncomb (Fam.width .v4) 1 6) (decompose .v4 1 6) :=
  ⟨by decide, by decide, decompose_minimality .v4 1 6 (by decide) (by decide)⟩

/-- Counterexample for C9: feeding a range line with mismatched families
(and, in the second conjunct, an inverted 4-variant range with
from > to) yields a successful parse with an empty result — no
ValidationError is surfaced and the batch is not aborted, because the
range branch of `ParseIPSubnets` has no error path after the two
endpoint addresses parse. -/
theorem parse_invalid_range_no_error :
    ParseIPSubnets [.rng ⟨.v4, 1⟩ ⟨.v6, 2⟩] = .ok [] ∧
    ParseIPSubnets [.rng ⟨.v4, 5⟩ ⟨.v4, 3⟩] = .ok [] ∧
    (∀ e, ParseIPSubnets [.rng ⟨.v4, 1⟩ ⟨.v6, 2⟩] ≠ .error e) := by
  refine ⟨rfl, rfl, ?_⟩
  intro e h
  have h2 : (Except.ok [] : Except ParseErr (List Pfx)) = .error e := h
  exact Except.noConfusion h2

/-- C9 as amended: a range line whose endpoints have mismatched
families, or whose first endpoint exceeds the second, is silently
skipped — the scan continues as if the line were absent, contributing
nothing, and no error is returned for it. -/
theorem parse_invalid_range_skipped (a b : Addr) (nets : List Pfx)
    (its : List LineItem) (h : ¬ (a.fam = b.fam ∧ a.val ≤ b.val)) :
    parseItemsAux nets (.rng a b :: its) = parseItemsAux nets its := by
  simp only [parseItemsAux, parseStep, appendRangeOf]
  rw [if_neg h]

/-- Witness for the amended C9 at a concrete mixed-family range line. -/
theorem parse_invalid_range_skipped_witness :
    ¬ ((⟨.v4, 1⟩ : Addr).fam = (⟨.v6, 2⟩ : Addr).fam ∧
        (⟨.v4, 1⟩ : Addr).val ≤ (⟨.v6, 2⟩ : Addr).val) ∧
    parseItemsAux [] [.rng ⟨.v4, 1⟩ ⟨.v6, 2⟩, .single ⟨.v4, 3⟩] =
      parseItemsAux [] [.single ⟨.v4, 3⟩] :=
  ⟨by decide, parse_invalid_range_skipped ⟨.v4, 1⟩ ⟨.v6, 2⟩ []
    [.single ⟨.v4, 3⟩] (by decide)⟩
